import Mathlib

/-!
Verification of the lazydir pipeline core.

This file shallowly embeds the parts of `lazydir` (a Python CLI for
selecting, extracting attributes from, grouping and batch-renaming files)
that the specification's claims talk about, and proves or refutes each
claim against the embedding.

Conventions of the embedding:
* Python strings are Lean `String`s; string algorithms are implemented on
  the underlying `List Char` so that everything is executable and
  kernel-reducible.
* Python exceptions are modelled with `Except String`.
* Python `int` is `Int`.
* Filesystem side effects are abstracted by explicit oracles (see
  `Writer.rewriteGo`).
-/

namespace Lazydir

/-- The attribute table: `utils.Attributes = list[tuple[str, list[str]]]`,
one row per file: the file path and its ordered attribute values. -/
abbrev Attributes := List (String × List String)

/-! ### String splitting primitives (Python `str.split`, `str.replace`) -/

/-- Finds the leftmost occurrence of `sep` in `l` and returns the text
before it and the text after it (Python `s.find(sep)` + slicing).
Returns `none` when `sep` does not occur.  Only meaningful for `sep ≠ []`
(Python raises on an empty separator). -/
def findSplit (sep : List Char) : List Char → Option (List Char × List Char)
  | [] => none
  | c :: rest =>
    if sep.isPrefixOf (c :: rest) then some ([], (c :: rest).drop sep.length)
    else
      match findSplit sep rest with
      | none => none
      | some (a, b) => some (c :: a, b)

/-- Splits on `sep` at most `fuel` times (worker for `splitAll`). -/
def splitFuel (sep : List Char) : Nat → List Char → List (List Char)
  | 0, l => [l]
  | fuel + 1, l =>
    match findSplit sep l with
    | none => [l]
    | some (a, b) => a :: splitFuel sep fuel b

/-- Python `s.split(sep)` with no split limit: each occurrence of `sep`
consumes at least one character, so `l.length` steps of fuel always
suffice. -/
def splitAll (sep l : List Char) : List (List Char) :=
  splitFuel sep l.length l

/-- Python `s.split(sep, maxsplit=n)` for `n ≥ 0`: at most `n` splits. -/
def splitN (sep : List Char) : Nat → List Char → List (List Char)
  | 0, l => [l]
  | n + 1, l =>
    match findSplit sep l with
    | none => [l]
    | some (a, b) => a :: splitN sep n b

/-- Python `s.split(sep, maxsplit)`: a negative `maxsplit` means
"unlimited". -/
def pySplit (s sep : String) (maxsplit : Int) : List String :=
  if maxsplit < 0 then (splitAll sep.data s.data).map String.mk
  else (splitN sep.data maxsplit.toNat s.data).map String.mk

/-- Python `s.replace(old, new, count)` for a non-empty `old`
(`count < 0` replaces every occurrence): replacing is splitting on `old`
(limited by `count`) and re-joining with `new`. -/
def pyReplace (s old new : String) (count : Int) : String :=
  String.intercalate new (pySplit s old count)

/-- Python `str.upper` (ASCII letters, which is all the repository's
tests exercise). -/
def pyUpper (s : String) : String := String.mk (s.data.map Char.toUpper)

/-- Python `str.lower` (ASCII letters). -/
def pyLower (s : String) : String := String.mk (s.data.map Char.toLower)

/-! ### Path slicing (`os.path.basename`, `os.path.dirname`) -/

/-- `os.path.basename(p)` on POSIX: the text after the last `'/'`. -/
def pyBasename (p : String) : String :=
  String.mk ((p.data.reverse.takeWhile (fun c => c ≠ '/')).reverse)

/-- `os.path.dirname(p)` on POSIX: the text up to the last `'/'`,
with trailing slashes stripped unless the result is all slashes. -/
def pyDirname (p : String) : String :=
  let head := (p.data.reverse.dropWhile (fun c => c ≠ '/')).reverse
  if head ≠ [] ∧ head.any (fun c => c ≠ '/') then
    String.mk ((head.reverse.dropWhile (fun c => c = '/')).reverse)
  else String.mk head

namespace Utils

/-- One entry of `utils.filetuple`: full path, parent directory, basename,
name without extension, extension. -/
structure FileTuple where
  file : String
  dir : String
  base : String
  name : String
  ext : String
deriving Repr, DecidableEq

/-- `utils.filetuple`, one file: split the basename at its *first* dot.
A basename starting with a dot is all extension; a basename without a dot
is all name. -/
def filetupleOne (file : String) : FileTuple :=
  let basename := pyBasename file
  if basename.data.head? = some '.' then
    ⟨file, pyDirname file, basename, "", basename⟩
  else if '.' ∈ basename.data then
    let parts := pySplit basename "." 1
    ⟨file, pyDirname file, basename, parts.headD "", (parts.drop 1).headD ""⟩
  else
    ⟨file, pyDirname file, basename, basename, ""⟩

/-- `utils.filetuple` over a file list. -/
def filetuple (files : List String) : List FileTuple :=
  files.map filetupleOne

/-- `utils.compose_filepath(dirname, filename, extension, sep)`:
`f'{dirname}{sep if dirname else ""}{filename}{"." + extension if extension else ""}'`
(a `None` extension and an empty extension are both falsy and modelled by `""`). -/
def compose_filepath (dirname filename extension sep : String) : String :=
  dirname ++ (if dirname ≠ "" then sep else "") ++ filename ++
    (if extension ≠ "" then "." ++ extension else "")

end Utils

/-! ### Exceptions -/

/-- Left-to-right effectful map over `Except`: the Python semantics of a
list comprehension or a `for` loop whose body may raise — the first raised
exception propagates and nothing after it is evaluated. -/
def mapExcept (f : α → Except String β) : List α → Except String (List β)
  | [] => .ok []
  | a :: as =>
    match f a with
    | .error e => .error e
    | .ok b =>
      match mapExcept f as with
      | .error e => .error e
      | .ok bs => .ok (b :: bs)

/-- Python `list.index(x)`: the first index of `x`, or a `ValueError`
naming `x` when absent (the error value is the missing name). -/
def pyIndex (l : List String) (x : String) : Except String Nat :=
  if x ∈ l then .ok (l.indexOf x) else .error x

/-- Python `attrs[i]` for `i ≥ 0`: the value, or an `IndexError`. -/
def pyGetAttr (attrs : List String) (i : Nat) : Except String String :=
  match attrs.get? i with
  | some v => .ok v
  | none => .error "IndexError"

/-! ### Python `range` and slice indices -/

/-- The length of Python `range(start, stop, step)`
(`max 0 ⌈(stop-start)/step⌉` for `step > 0` and symmetrically for
`step < 0`; `step = 0` raises in Python and is given length 0 here). -/
def pyRangeLen (start stop step : Int) : Nat :=
  if 0 < step then ((stop - start).toNat + step.toNat - 1) / step.toNat
  else if step < 0 then ((start - stop).toNat + (-step).toNat - 1) / (-step).toNat
  else 0

/-- Python `list(range(start, stop, step))`. -/
def pyRange (start stop step : Int) : List Int :=
  (List.range (pyRangeLen start stop step)).map (fun i : Nat => start + step * (i : Int))

/-- Normalization of a Python slice endpoint `i` against a list of length
`len`: negative indices count from the end, and the result is clamped to
`[0, len]`. -/
def pySliceIdx (len : Nat) (i : Int) : Nat :=
  if i < 0 then ((len : Int) + i).toNat else min i.toNat len

namespace Writer

open Utils

/-- `writer.replace(files, char, repl, count)`: per file, replace in the
name part (extension excluded) and re-compose the path. -/
def replace (files : List String) (char repl : String) (count : Int) : List String :=
  (filetuple files).map fun t =>
    compose_filepath t.dir (pyReplace t.name char repl count) t.ext "/"

/-- `writer.sub(files, expr, repl, count)`: `re.sub` is Python-stdlib
regex code outside this repository, so the name transformation it
performs is an explicit parameter `rsub`; the function applies it to the
name part only and re-composes the path, exactly as the source does. -/
def sub (rsub : String → String) (files : List String) : List String :=
  (filetuple files).map fun t =>
    compose_filepath t.dir (rsub t.name) t.ext "/"

/-- `writer.upper`. -/
def upper (files : List String) : List String :=
  (filetuple files).map fun t =>
    compose_filepath t.dir (pyUpper t.name) t.ext "/"

/-- `writer.lower`. -/
def lower (files : List String) : List String :=
  (filetuple files).map fun t =>
    compose_filepath t.dir (pyLower t.name) t.ext "/"

/-- `word[0].upper() + word[1:] if word else ''`. -/
def capWord (w : String) : String :=
  match w.data with
  | [] => ""
  | c :: cs => String.mk (Char.toUpper c :: cs)

/-- The body of `writer.capitalize`'s loop for one file.  Returns the new
path and the (possibly reassigned) `count`: the source rebinds the
`count` parameter inside the loop, so the new value is threaded to the
remaining files. -/
def capitalizeOne (prev_char : String) (capitalize_start : Bool) (count : Int)
    (t : FileTuple) : String × Int :=
  let words := pySplit t.name prev_char count
  let fw := words.headD ""
  let first_word := if capitalize_start then capWord fw else fw
  if words.length = 1 then
    (t.dir ++ (if t.dir ≠ "" then "/" else "") ++ first_word ++ "." ++ t.ext, count)
  else
    let l : Int := (words.length : Int)
    let count' := if count > l ∨ count = -1 then l else count
    let missing :=
      if count > l ∨ count = -1 then ([] : List String)
      else words.drop (pySliceIdx words.length count)
    let upper_words :=
      ((words.take (pySliceIdx words.length count')).drop 1).map capWord ++ missing
    (compose_filepath t.dir (String.intercalate prev_char (first_word :: upper_words))
      t.ext "/", count')

/-- `writer.capitalize`'s loop, threading the rebindable `count`. -/
def capitalizeGo (prev_char : String) (capitalize_start : Bool) :
    Int → List FileTuple → List String
  | _, [] => []
  | count, t :: ts =>
    let (r, count') := capitalizeOne prev_char capitalize_start count t
    r :: capitalizeGo prev_char capitalize_start count' ts

/-- `writer.capitalize(files, prev_char, count, capitalize_start)`. -/
def capitalize (files : List String) (prev_char : String) (count : Int)
    (capitalize_start : Bool) : List String :=
  capitalizeGo prev_char capitalize_start count (filetuple files)

/-- `writer.rewrite`'s loop over `zip(original, renamed)`.  The oracle
`fails o r` says whether the filesystem work for the differing pair
`(o, r)` (the `os.path.exists` stat, `os.makedirs`, `os.rename`) raises.
The source has no `try`/`except`, so a raise propagates out of the loop:
the result is the list of pairs the loop reached before terminating,
together with the pair whose exception aborted it (if any).  Pairs with
`o = r` perform no filesystem call and cannot fail. -/
def rewriteGo (fails : String → String → Bool) :
    List (String × String) → List (String × String) × Option (String × String)
  | [] => ([], none)
  | (o, r) :: rest =>
    if o ≠ r then
      if fails o r then ([(o, r)], some (o, r))
      else ((o, r) :: (rewriteGo fails rest).1, (rewriteGo fails rest).2)
    else ((o, r) :: (rewriteGo fails rest).1, (rewriteGo fails rest).2)

/-- `writer.rewrite(original, renamed)` under the failure oracle. -/
def rewrite (fails : String → String → Bool) (original renamed : List String) :
    List (String × String) × Option (String × String) :=
  rewriteGo fails (original.zip renamed)

end Writer

namespace Group

/-- `group.extract_name`: `os.path.basename(file).split('.')[0]`. -/
def extract_name (files : List String) : List String :=
  files.map fun f => ((splitAll ['.'] (pyBasename f).data).map String.mk).headD ""

/-- `group.extract_ext`: `file.split('.')[-1]` — note: the *whole path*
split at its *last* dot. -/
def extract_ext (files : List String) : List String :=
  files.map fun f => ((splitAll ['.'] f.data).map String.mk).getLastD ""

/-- `group.add_field(selections, field)`: `zip`s rows with the new
values and appends one value per zipped row.  Rows beyond
`field.length` are left untouched (zip truncation); values beyond
`selections.length` are dropped. -/
def add_field (selections : Attributes) (field : List String) : Attributes :=
  (List.zipWith (fun row v => (row.1, row.2 ++ [v])) selections field) ++
    selections.drop field.length

/-- `group.select_fields(selections, indexes)` for integer indexes:
per row, pick `attributes[i]` for each `i` (raising `IndexError` on an
out-of-range index, modelled by `Except`). -/
def select_fields (selections : Attributes) (indexes : List Nat) :
    Except String Attributes :=
  mapExcept (fun row =>
    match mapExcept (pyGetAttr row.2) indexes with
    | .error e => .error e
    | .ok vals => .ok (row.1, vals)) selections

/-- `group.select_variables(selections, global_variables, variables)`:
`indexes = [global_variables.index(var) for var in variables]` (the first
missing variable raises a `ValueError` naming it), then `select_fields`. -/
def select_variables (selections : Attributes) (global_variables vars : List String) :
    Except String Attributes :=
  match mapExcept (pyIndex global_variables) vars with
  | .error e => .error e
  | .ok indexes => select_fields selections indexes

/-- `'\\'.join(l)` — the group-key join of `group.collapse_groups`. -/
def makeHashable (l : List String) : String :=
  String.intercalate "\\" l

/-- First-occurrence deduplication: the key order of a Python dict built
by a comprehension. -/
def firstDedup : List String → List String
  | [] => []
  | x :: xs => x :: (firstDedup xs).filter (fun y => y ≠ x)

/-- `group.collapse_groups(selections)`: a dict keyed by the joined
attribute list, each key mapped to the files of the rows sharing it (in
row order), returned as `items()` in key-first-occurrence order. -/
def collapse_groups (selections : Attributes) : List (String × List String) :=
  (firstDedup (selections.map fun s => makeHashable s.2)).map fun k =>
    (k, (selections.filter fun s => makeHashable s.2 = k).map Prod.fst)

/-- Code-point lexicographic `≤` on strings (as `List Char`): the order
Python uses to compare `str` keys. -/
def lexLe : List Char → List Char → Bool
  | [], _ => true
  | _ :: _, [] => false
  | a :: as, b :: bs =>
    if a.toNat < b.toNat then true
    else if b.toNat < a.toNat then false
    else lexLe as bs

/-- The key order used to sort group lists. -/
def keyLe (a b : String × List String) : Prop :=
  lexLe a.1.data b.1.data = true

instance : DecidableRel keyLe := fun a b =>
  inferInstanceAs (Decidable (lexLe a.1.data b.1.data = true))

/-- `sorted(groups)` for a list of `(key, files)` pairs: Python sorts
tuples lexicographically; group lists come from `dict.items()`, whose
keys are pairwise distinct, so a stable sort by key alone produces the
identical result. -/
def sortPairs (l : List (String × List String)) : List (String × List String) :=
  l.insertionSort keyLe

/-- `group.extract_group_index(files, groups, start, step, reverse)`:
sort the groups, reverse if asked, pair them with
`range(start, len(groups)*step+start, step)`, then for each file append
the index paired with the first group whose file list contains it —
files contained in no group are skipped. -/
def extract_group_index (files : List String) (groups : List (String × List String))
    (start step : Int) (reverse : Bool) : List String :=
  files.filterMap fun file =>
    (((if reverse then (sortPairs groups).reverse else sortPairs groups).zip
        (pyRange start ((groups.length : Int) * step + start) step)).find?
      fun gi => decide (file ∈ gi.1.2)).map fun gi => toString gi.2

/-- `group.extract_sub_index(files, groups, start, step)`: for each file,
the position of the file inside the first group containing it, scaled by
`step` and offset by `start`; files contained in no group are skipped. -/
def extract_sub_index (files : List String) (groups : List (String × List String))
    (start step : Int) : List String :=
  files.filterMap fun file =>
    (groups.find? fun g => decide (file ∈ g.2)).map fun g =>
      toString ((g.2.indexOf file : Int) * step + start)

end Group

namespace Cli

/-- The combine step of `cli.selection`: dispatch on the session's
`logic-mode` string; any mode other than `"and"`, `"or"`, `"xor"` takes
the `else` branch (set difference — the `"not"` connector). -/
def combine (pool s : Finset String) (mode : String) : Finset String :=
  if mode = "and" then pool ∩ s
  else if mode = "or" then pool ∪ s
  else if mode = "xor" then (pool \ s) ∪ (s \ pool)
  else pool \ s

/-- The select-phase fragment of the session state: the file listing
captured when the select phase started, the accumulating pool, and the
sticky logic mode. -/
structure SelectState where
  files : List String
  pool : Finset String
  mode : String
deriving DecidableEq

/-- A chained token processed during the select phase, before any other
operation token: either a logic connector (a string that is not an
operation name, stored into `logic-mode`) or a selector invocation (a
closure reading `ctx.obj['files']`, dispatched to `cli.selection`). -/
inductive SelectToken where
  | logic (m : String)
  | selector (f : List String → List String)

/-- One step of `cli.cli_process_pipeline` within the select phase:
a logic token only rebinds the mode; a selector token evaluates the
selector on the session's file listing and combines the result into the
pool.  `ctx.obj['files']` is reassigned only when a non-select operation
token arrives, which is outside this fragment. -/
def selectStep (st : SelectState) (t : SelectToken) : SelectState :=
  match t with
  | .logic m => { st with mode := m }
  | .selector f => { st with pool := combine st.pool (f st.files).toFinset st.mode }

/-- The same step with every selector evaluated against a fixed original
listing `orig` instead of the session's current listing. -/
def selectStepOrig (orig : List String) (st : SelectState) (t : SelectToken) : SelectState :=
  match t with
  | .logic m => { st with mode := m }
  | .selector f => { st with pool := combine st.pool (f orig).toFinset st.mode }

end Cli

/-! ## Helper lemmas -/

theorem mem_firstDedup {a : String} : ∀ {l : List String},
    a ∈ Group.firstDedup l ↔ a ∈ l := by
  intro l
  induction l with
  | nil => simp [Group.firstDedup]
  | cons x xs ih =>
    by_cases hax : a = x
    · subst hax; simp [Group.firstDedup]
    · simp [Group.firstDedup, hax, ih]

theorem eq_of_mem_of_nodup_fst : ∀ {l : Attributes},
    (l.map Prod.fst).Nodup → ∀ {r1 r2 : String × List String},
    r1 ∈ l → r2 ∈ l → r1.1 = r2.1 → r1 = r2 := by
  intro l
  induction l with
  | nil => intro _ r1 r2 h1; simp at h1
  | cons a t ih =>
    intro hnd r1 r2 h1 h2 hf
    rw [List.map_cons, List.nodup_cons] at hnd
    rcases List.mem_cons.mp h1 with h1 | h1 <;>
      rcases List.mem_cons.mp h2 with h2 | h2
    · rw [h1, h2]
    · refine absurd ?_ hnd.1
      have hm : r2.1 ∈ t.map Prod.fst := List.mem_map_of_mem Prod.fst h2
      rwa [← hf, h1] at hm
    · refine absurd ?_ hnd.1
      have hm : r1.1 ∈ t.map Prod.fst := List.mem_map_of_mem Prod.fst h1
      rwa [hf, h2] at hm
    · exact ih hnd.2 h1 h2 hf

/-- Every group produced by `collapse_groups` is determined by its key:
it is the pair of the key and the files of the rows carrying that key. -/
theorem collapse_groups_shape {sel : Attributes} {g : String × List String}
    (hg : g ∈ Group.collapse_groups sel) :
    g = (g.1, (sel.filter fun s => Group.makeHashable s.2 = g.1).map Prod.fst) ∧
    g.1 ∈ sel.map fun s => Group.makeHashable s.2 := by
  obtain ⟨k, hk, rfl⟩ := List.mem_map.mp hg
  exact ⟨rfl, mem_firstDedup.mp hk⟩

/-- Membership in a collapse group's file list, unfolded to rows. -/
theorem mem_collapse_group {sel : Attributes} {g : String × List String}
    (hg : g ∈ Group.collapse_groups sel) {x : String} :
    x ∈ g.2 ↔ ∃ r ∈ sel, r.1 = x ∧ Group.makeHashable r.2 = g.1 := by
  conv_lhs => rw [(collapse_groups_shape hg).1]
  simp only [List.mem_map, List.mem_filter, decide_eq_true_eq]
  constructor
  · rintro ⟨r, ⟨hr, hkey⟩, hx⟩; exact ⟨r, hr, hx, hkey⟩
  · rintro ⟨r, hr, hx, hkey⟩; exact ⟨r, ⟨hr, hkey⟩, hx⟩

theorem mapExcept_ok {f : α → Except String β} {g : α → β} :
    ∀ {l : List α}, (∀ a ∈ l, f a = .ok (g a)) → mapExcept f l = .ok (l.map g) := by
  intro l
  induction l with
  | nil => intro _; rfl
  | cons a as ih =>
    intro h
    have ha := h a (List.mem_cons_self a as)
    have has := ih fun x hx => h x (List.mem_cons_of_mem a hx)
    simp [mapExcept, ha, has]

theorem mapExcept_first_error {f : α → Except String β} {v : α} {e : String}
    (hv : f v = .error e) :
    ∀ (pre : List α), (∀ u ∈ pre, ∃ b, f u = .ok b) →
    ∀ post, mapExcept f (pre ++ v :: post) = .error e := by
  intro pre
  induction pre with
  | nil => intro _ post; simp [mapExcept, hv]
  | cons u us ih =>
    intro h post
    obtain ⟨b, hb⟩ := h u (List.mem_cons_self u us)
    have hus := ih (fun x hx => h x (List.mem_cons_of_mem u hx)) post
    simp [mapExcept, hb, hus]

theorem pyGetAttr_ok {attrs : List String} {i : Nat} (h : i < attrs.length) :
    pyGetAttr attrs i = .ok (attrs.getD i "") := by
  have h' : attrs[i]? = some attrs[i] := List.getElem?_eq_getElem h
  simp [pyGetAttr, List.get?_eq_getElem?, h', List.getD_eq_getElem?_getD]

theorem pyRangeLen_exact (start : Int) (step : Int) (hstep : step ≠ 0) (n : Nat) :
    pyRangeLen start ((n : Int) * step + start) step = n := by
  have key : ∀ s : Nat, 0 < s → (n * s + s - 1) / s = n := by
    intro s hs
    have h1 : n * s + s - 1 = (s - 1) + n * s := by omega
    rw [h1, Nat.add_mul_div_right _ _ hs, Nat.div_eq_of_lt (by omega), Nat.zero_add]
  rcases hstep.lt_or_lt with hneg | hpos
  · have hnn : (0 : Int) ≤ -step := by omega
    have hmeq : -step = ((-step).toNat : Int) := (Int.toNat_of_nonneg hnn).symm
    unfold pyRangeLen
    rw [if_neg (by omega), if_pos hneg]
    have h2 : start - ((n : Int) * step + start) = (n : Int) * ((-step).toNat : Int) := by
      rw [← hmeq]; ring
    have h3 : ((n : Int) * ((-step).toNat : Int)) = ((n * (-step).toNat : Nat) : Int) := by
      push_cast; ring
    rw [h2, h3, Int.toNat_natCast]
    exact key (-step).toNat (by omega)
  · have hmeq : step = (step.toNat : Int) := (Int.toNat_of_nonneg hpos.le).symm
    unfold pyRangeLen
    rw [if_pos hpos]
    have h2 : (n : Int) * step + start - start = (n : Int) * (step.toNat : Int) := by
      rw [← hmeq]; ring
    have h3 : ((n : Int) * (step.toNat : Int)) = ((n * step.toNat : Nat) : Int) := by
      push_cast; ring
    rw [h2, h3, Int.toNat_natCast]
    exact key step.toNat (by omega)

theorem pyRange_exact (start : Int) (step : Int) (hstep : step ≠ 0) (n : Nat) :
    pyRange start ((n : Int) * step + start) step
      = (List.range n).map fun i : Nat => start + step * (i : Int) := by
  unfold pyRange
  rw [pyRangeLen_exact start step hstep n]

theorem lexLe_total : ∀ a b : List Char, Group.lexLe a b = true ∨ Group.lexLe b a = true := by
  intro a
  induction a with
  | nil => intro b; left; rfl
  | cons x xs ih =>
    intro b
    cases b with
    | nil => right; rfl
    | cons y ys =>
      by_cases h1 : x.toNat < y.toNat
      · left; simp [Group.lexLe, h1]
      · by_cases h2 : y.toNat < x.toNat
        · right; simp [Group.lexLe, h2]
        · rcases ih ys with h | h
          · left; simp [Group.lexLe, h1, h2, h]
          · right; simp [Group.lexLe, h1, h2, h]

theorem lexLe_trans : ∀ a b c : List Char,
    Group.lexLe a b = true → Group.lexLe b c = true → Group.lexLe a c = true := by
  intro a
  induction a with
  | nil => intro b c _ _; rfl
  | cons x xs ih =>
    intro b c hab hbc
    cases b with
    | nil => simp [Group.lexLe] at hab
    | cons y ys =>
      cases c with
      | nil => simp [Group.lexLe] at hbc
      | cons z zs =>
        have hab' : x.toNat < y.toNat ∨ (x.toNat = y.toNat ∧ Group.lexLe xs ys = true) := by
          by_cases h1 : x.toNat < y.toNat
          · exact Or.inl h1
          · by_cases h2 : y.toNat < x.toNat
            · rw [Group.lexLe, if_neg h1, if_pos h2] at hab; exact absurd hab (by simp)
            · exact Or.inr ⟨by omega, by rwa [Group.lexLe, if_neg h1, if_neg h2] at hab⟩
        have hbc' : y.toNat < z.toNat ∨ (y.toNat = z.toNat ∧ Group.lexLe ys zs = true) := by
          by_cases h1 : y.toNat < z.toNat
          · exact Or.inl h1
          · by_cases h2 : z.toNat < y.toNat
            · rw [Group.lexLe, if_neg h1, if_pos h2] at hbc; exact absurd hbc (by simp)
            · exact Or.inr ⟨by omega, by rwa [Group.lexLe, if_neg h1, if_neg h2] at hbc⟩
        rcases hab' with h | ⟨hxy, hrec1⟩ <;> rcases hbc' with h' | ⟨hyz, hrec2⟩
        · rw [Group.lexLe, if_pos (by omega)]
        · rw [Group.lexLe, if_pos (by omega)]
        · rw [Group.lexLe, if_pos (by omega)]
        · rw [Group.lexLe, if_neg (by omega), if_neg (by omega)]
          exact ih ys zs hrec1 hrec2

instance : IsTotal (String × List String) Group.keyLe :=
  ⟨fun a b => lexLe_total a.1.data b.1.data⟩

instance : IsTrans (String × List String) Group.keyLe :=
  ⟨fun a b c => lexLe_trans a.1.data b.1.data c.1.data⟩

theorem sortPairs_perm (l : List (String × List String)) :
    (Group.sortPairs l).Perm l :=
  List.perm_insertionSort _ l

theorem sortPairs_sorted (l : List (String × List String)) :
    List.Sorted Group.keyLe (Group.sortPairs l) :=
  List.sorted_insertionSort _ l

/-- When a file is in no group of `l`, scanning the groups zipped with
their indices finds nothing. -/
theorem find_zip_range_none {f : String} :
    ∀ (l : List (String × List String)) (h : Nat → Int), (∀ g ∈ l, f ∉ g.2) →
    (l.zip ((List.range l.length).map h)).find? (fun gi => decide (f ∈ gi.1.2)) = none := by
  intro l
  induction l with
  | nil => intro h _; rfl
  | cons g gs ih =>
    intro h hall
    rw [List.length_cons, List.range_succ_eq_map, List.map_cons, List.map_map,
      List.zip_cons_cons, List.find?_cons_of_neg _ (by simp [hall g (List.mem_cons_self g gs)])]
    exact ih (h ∘ Nat.succ) fun g' hg' => hall g' (List.mem_cons_of_mem g hg')

/-- When a file is in some group of `l`, scanning the groups zipped with
their indices finds the first group containing the file together with the
index at its position (`List.findIdx`). -/
theorem find_zip_range_some {f : String} :
    ∀ (l : List (String × List String)) (h : Nat → Int), (∃ g ∈ l, f ∈ g.2) →
    ∃ g, l.get? (l.findIdx fun g => decide (f ∈ g.2)) = some g ∧ f ∈ g.2 ∧
      (l.zip ((List.range l.length).map h)).find? (fun gi => decide (f ∈ gi.1.2))
        = some (g, h (l.findIdx fun g => decide (f ∈ g.2))) := by
  intro l
  induction l with
  | nil => intro h hex; simp at hex
  | cons g gs ih =>
    intro h hex
    by_cases hg : f ∈ g.2
    · have hidx : (List.findIdx (fun g => decide (f ∈ g.2)) (g :: gs)) = 0 := by
        rw [List.findIdx_cons]; simp [hg]
      refine ⟨g, by rw [hidx]; rfl, hg, ?_⟩
      rw [List.length_cons, List.range_succ_eq_map, List.map_cons, List.map_map,
        List.zip_cons_cons, List.find?_cons_of_pos _ (by simp [hg]), hidx]
    · have hex' : ∃ g' ∈ gs, f ∈ g'.2 := by
        rcases hex with ⟨g', hg', hf⟩
        rcases List.mem_cons.mp hg' with rfl | h'
        · exact absurd hf hg
        · exact ⟨g', h', hf⟩
      obtain ⟨g', hget, hf, hfind⟩ := ih (h ∘ Nat.succ) hex'
      have hidx : (List.findIdx (fun g => decide (f ∈ g.2)) (g :: gs))
          = (List.findIdx (fun g => decide (f ∈ g.2)) gs) + 1 := by
        rw [List.findIdx_cons]; simp [hg]
      refine ⟨g', by rw [hidx]; exact hget, hf, ?_⟩
      rw [List.length_cons, List.range_succ_eq_map, List.map_cons, List.map_map,
        List.zip_cons_cons, List.find?_cons_of_neg _ (by simp [hg]), hidx]
      exact hfind

theorem filterMap_length_all_some {α β : Type _} (F : α → Option β) :
    ∀ l : List α, (∀ a ∈ l, (F a).isSome) → (l.filterMap F).length = l.length := by
  intro l
  induction l with
  | nil => intro _; rfl
  | cons a as ih =>
    intro h
    obtain ⟨b, hb⟩ := Option.isSome_iff_exists.mp (h a (List.mem_cons_self a as))
    rw [List.filterMap_cons, hb, List.length_cons,
      ih fun x hx => h x (List.mem_cons_of_mem a hx)]
    rfl

theorem filterMap_length_lt {α β : Type _} (F : α → Option β) :
    ∀ l : List α, (∃ a ∈ l, F a = none) → (l.filterMap F).length < l.length := by
  intro l
  induction l with
  | nil => intro hex; simp at hex
  | cons a as ih =>
    intro hex
    rcases hex with ⟨x, hx, hFx⟩
    rcases List.mem_cons.mp hx with rfl | hx'
    · rw [List.filterMap_cons, hFx, List.length_cons]
      exact Nat.lt_succ_of_le (List.length_filterMap_le F as)
    · have hlt := ih ⟨x, hx', hFx⟩
      rw [List.filterMap_cons, List.length_cons]
      cases hFa : F a with
      | none => exact Nat.lt_succ_of_lt hlt
      | some b => rw [List.length_cons]; omega

/-- The per-file scan of `extract_group_index`, rewritten over the sorted
(and possibly reversed) group order with the explicit index list. -/
theorem extract_group_index_eq (files : List String)
    (groups : List (String × List String)) (start step : Int) (rev : Bool)
    (hstep : step ≠ 0) :
    Group.extract_group_index files groups start step rev
      = files.filterMap fun file =>
          (((if rev then (Group.sortPairs groups).reverse else Group.sortPairs groups).zip
              ((List.range
                (if rev then (Group.sortPairs groups).reverse
                  else Group.sortPairs groups).length).map
                fun i : Nat => start + step * (i : Int))).find?
            fun gi => decide (file ∈ gi.1.2)).map fun gi => toString gi.2 := by
  have hlen : (if rev then (Group.sortPairs groups).reverse
      else Group.sortPairs groups).length = groups.length := by
    cases rev <;> simp [(sortPairs_perm groups).length_eq]
  unfold Group.extract_group_index
  rw [pyRange_exact start step hstep groups.length, ← hlen]

theorem findSplit_single_some {c : Char} : ∀ {l : List Char}, c ∈ l →
    ∃ a b, findSplit [c] l = some (a, b) ∧ l = a ++ c :: b ∧ c ∉ a := by
  intro l
  induction l with
  | nil => intro h; simp at h
  | cons x rest ih =>
    intro h
    by_cases hx : c = x
    · subst hx
      exact ⟨[], rest, by simp [findSplit, List.isPrefixOf], rfl, by simp⟩
    · have hcr : c ∈ rest := by
        rcases List.mem_cons.mp h with h' | h'
        · exact absurd h' hx
        · exact h'
      obtain ⟨a, b, hfind, heq, hna⟩ := ih hcr
      refine ⟨x :: a, b, ?_, by rw [List.cons_append, heq], by simp [hx, hna]⟩
      simp [findSplit, List.isPrefixOf, hx, hfind]

theorem findSplit_single_sound {c : Char} : ∀ {l a b : List Char},
    findSplit [c] l = some (a, b) → l = a ++ c :: b ∧ c ∉ a := by
  intro l
  induction l with
  | nil => intro a b h; simp [findSplit] at h
  | cons x rest ih =>
    intro a b h
    by_cases hx : c = x
    · subst hx
      have : findSplit [c] (c :: rest) = some ([], rest) := by
        simp [findSplit, List.isPrefixOf]
      rw [this] at h
      obtain ⟨rfl, rfl⟩ : [] = a ∧ rest = b := by
        constructor <;> [exact congrArg Prod.fst (Option.some.inj h);
          exact congrArg Prod.snd (Option.some.inj h)]
      exact ⟨rfl, by simp⟩
    · have hstep : findSplit [c] (x :: rest)
          = match findSplit [c] rest with
            | none => none
            | some (a, b) => some (x :: a, b) := by
        simp [findSplit, List.isPrefixOf, hx]
      rw [hstep] at h
      cases hf : findSplit [c] rest with
      | none => rw [hf] at h; simp at h
      | some ab =>
        obtain ⟨a', b'⟩ := ab
        rw [hf] at h
        obtain ⟨rfl, rfl⟩ : x :: a' = a ∧ b' = b := by
          constructor <;> [exact congrArg Prod.fst (Option.some.inj h);
            exact congrArg Prod.snd (Option.some.inj h)]
        obtain ⟨heq, hna⟩ := ih hf
        exact ⟨by rw [List.cons_append, heq], by simp [hx, hna]⟩

theorem takeWhile_all {p : Char → Bool} : ∀ l : List Char,
    (∀ x ∈ l, p x = true) → l.takeWhile p = l := by
  intro l
  induction l with
  | nil => intro _; rfl
  | cons x xs ih =>
    intro h
    rw [List.takeWhile_cons, h x (List.mem_cons_self x xs),
      ih fun y hy => h y (List.mem_cons_of_mem x hy)]
    rfl

theorem takeWhile_append_stop {p : Char → Bool} {y : Char} {ys : List Char}
    (hy : p y = false) : ∀ xs : List Char,
    (xs ++ y :: ys).takeWhile p = xs.takeWhile p := by
  intro xs
  induction xs with
  | nil => simp [List.takeWhile_cons, hy]
  | cons x xs ih =>
    rw [List.cons_append, List.takeWhile_cons, List.takeWhile_cons, ih]

theorem getLastD_map_mk : ∀ (l : List (List Char)) (d : List Char),
    (l.map String.mk).getLastD (String.mk d) = String.mk (l.getLastD d) := by
  intro l
  induction l with
  | nil => intro d; rfl
  | cons x xs ih =>
    intro d
    rw [List.map_cons, List.getLastD_cons, List.getLastD_cons, ih x]

/-- The last chunk of a full split on a single character is the text
after the last occurrence of that character (the whole text when the
character does not occur). -/
theorem splitFuel_getLast {c : Char} :
    ∀ (fuel : Nat) (l : List Char), l.length ≤ fuel →
    (splitFuel [c] fuel l).getLastD []
      = (l.reverse.takeWhile fun ch => ch ≠ c).reverse := by
  intro fuel
  induction fuel with
  | zero =>
    intro l hl
    have : l = [] := List.length_eq_zero.mp (Nat.le_zero.mp hl)
    subst this; rfl
  | succ fuel ih =>
    intro l hl
    unfold splitFuel
    cases hf : findSplit [c] l with
    | none =>
      have hcl : c ∉ l := by
        intro hc
        obtain ⟨a, b, hfind, _, _⟩ := findSplit_single_some hc
        rw [hf] at hfind
        exact absurd hfind (by simp)
      have hall : l.reverse.takeWhile (fun ch => ch ≠ c) = l.reverse :=
        takeWhile_all l.reverse fun x hx => by
          simp only [decide_eq_true_eq, ne_eq]
          intro hxc
          exact hcl (hxc ▸ List.mem_reverse.mp hx)
      rw [hall, List.reverse_reverse]
      rfl
    | some ab =>
      obtain ⟨a, b⟩ := ab
      obtain ⟨heq, _⟩ := findSplit_single_sound hf
      have hblen : b.length ≤ fuel := by
        have : l.length = a.length + 1 + b.length := by rw [heq]; simp; omega
        omega
      have hreva : l.reverse = b.reverse ++ c :: a.reverse := by
        rw [heq]; simp
      have hstop : l.reverse.takeWhile (fun ch => ch ≠ c)
          = b.reverse.takeWhile (fun ch => ch ≠ c) := by
        rw [hreva, takeWhile_append_stop (by simp)]
      rw [hstop, ← ih b hblen]
      have hne : splitFuel [c] fuel b ≠ [] := by
        cases fuel with
        | zero => simp [splitFuel]
        | succ fuel' =>
          cases hfb : findSplit [c] b with
          | none => simp [splitFuel, hfb]
          | some ab =>
            obtain ⟨a', b'⟩ := ab
            simp [splitFuel, hfb]
      rw [List.getLastD_cons, List.getLastD_eq_getLast?, List.getLastD_eq_getLast?,
        List.getLast?_eq_getLast _ hne]
      rfl

theorem compose_ext_ne {d n e : String} (he : e ≠ "") :
    Utils.compose_filepath d n e "/"
      = d ++ (if d ≠ "" then "/" else "") ++ n ++ "." ++ e := by
  unfold Utils.compose_filepath
  rw [if_pos he, ← String.append_assoc]

theorem compose_ext_empty (d n : String) :
    Utils.compose_filepath d n "" "/" = d ++ (if d ≠ "" then "/" else "") ++ n := by
  unfold Utils.compose_filepath
  have h2 : (if ("" : String) ≠ "" then "." ++ "" else "") = "" := by simp
  rw [h2, String.append_empty]

theorem filetupleOne_dotted {f : String} (hstart : (pyBasename f).data.head? ≠ some '.')
    (hdot : '.' ∈ (pyBasename f).data) :
    ∃ a b : List Char, (pyBasename f).data = a ++ '.' :: b ∧ '.' ∉ a ∧
      Utils.filetupleOne f = ⟨f, pyDirname f, pyBasename f, String.mk a, String.mk b⟩ := by
  obtain ⟨a, b, hfind, heq, hna⟩ := findSplit_single_some hdot
  refine ⟨a, b, heq, hna, ?_⟩
  have hN : splitN ['.'] 1 (pyBasename f).data
      = (match findSplit ['.'] (pyBasename f).data with
        | none => [(pyBasename f).data]
        | some (a, b) => a :: splitN ['.'] 0 b) := rfl
  rw [hfind] at hN
  have hsplit : pySplit (pyBasename f) "." 1 = [String.mk a, String.mk b] := by
    have h1 : pySplit (pyBasename f) "." 1
        = (splitN ['.'] 1 (pyBasename f).data).map String.mk := by
      unfold pySplit
      rw [if_neg (by norm_num)]
      rfl
    rw [h1, hN]
    rfl
  simp only [Utils.filetupleOne]
  rw [if_neg hstart, if_pos hdot, hsplit]
  rfl

theorem filetupleOne_dotless {f : String} (hstart : (pyBasename f).data.head? ≠ some '.')
    (hdot : '.' ∉ (pyBasename f).data) :
    Utils.filetupleOne f = ⟨f, pyDirname f, pyBasename f, pyBasename f, ""⟩ := by
  simp only [Utils.filetupleOne]
  rw [if_neg hstart, if_neg hdot]

/-- In both branches of `capitalize`'s per-file body, a file with a
non-empty extension keeps `"." ++ ext` as a suffix. -/
theorem capitalizeOne_ext (pc : String) (cs : Bool) (cnt : Int) (t : Utils.FileTuple)
    (he : t.ext ≠ "") :
    ∃ n', (Writer.capitalizeOne pc cs cnt t).1
      = t.dir ++ (if t.dir ≠ "" then "/" else "") ++ n' ++ "." ++ t.ext := by
  simp only [Writer.capitalizeOne]
  split
  · exact ⟨_, rfl⟩
  · exact ⟨_, compose_ext_ne he⟩

/-! ## Theorems -/

/-- C1: for every pool `P` and selector result `S`, the combine step of
`cli.selection` satisfies `combine(P,S,AND) = P ∩ S ⊆ P`,
`combine(P,S,OR) = P ∪ S ⊇ P`, `combine(P,S,XOR)` is symmetric, and
`combine(P,S,AND-NOT) = P \ S` (set difference, not a complement over a
universal set). -/
theorem combine_algebra (P S : Finset String) :
    Cli.combine P S "and" = P ∩ S ∧ Cli.combine P S "and" ⊆ P ∧
    Cli.combine P S "or" = P ∪ S ∧ P ⊆ Cli.combine P S "or" ∧
    Cli.combine P S "xor" = Cli.combine S P "xor" ∧
    Cli.combine P S "not" = P \ S := by
  have h1 : Cli.combine P S "and" = P ∩ S := by simp [Cli.combine]
  have h2 : Cli.combine P S "or" = P ∪ S := by simp [Cli.combine]
  have h3 : Cli.combine P S "xor" = (P \ S) ∪ (S \ P) := by simp [Cli.combine]
  have h3' : Cli.combine S P "xor" = (S \ P) ∪ (P \ S) := by simp [Cli.combine]
  have h4 : Cli.combine P S "not" = P \ S := by simp [Cli.combine]
  exact ⟨h1, h1 ▸ Finset.inter_subset_left, h2, h2 ▸ Finset.subset_union_left,
    by rw [h3, h3', Finset.union_comm], h4⟩

/-- C7: during a select phase (any sequence of logic-connector and
selector tokens after the select token and before any other operation
token), the captured file listing never changes, and the run is identical
to a run in which every selector is evaluated against the original
listing captured at phase start — only the pool is updated, by the
combine step. -/
theorem select_phase_preserves_listing (s : Lazydir.Cli.SelectState)
    (toks : List Lazydir.Cli.SelectToken) :
    (toks.foldl Cli.selectStep s).files = s.files ∧
    toks.foldl Cli.selectStep s = toks.foldl (Cli.selectStepOrig s.files) s := by
  induction toks generalizing s with
  | nil => exact ⟨rfl, rfl⟩
  | cons t ts ih =>
    have hfiles : (Cli.selectStep s t).files = s.files := by cases t <;> rfl
    have hone : Cli.selectStep s t = Cli.selectStepOrig s.files s t := by cases t <;> rfl
    obtain ⟨ih1, ih2⟩ := ih (Cli.selectStep s t)
    refine ⟨by simpa [List.foldl, hfiles] using ih1, ?_⟩
    show ts.foldl Cli.selectStep (Cli.selectStep s t)
      = ts.foldl (Cli.selectStepOrig s.files) (Cli.selectStepOrig s.files s t)
    rw [ih2, hfiles, hone]

/-- C2 (evaluation at the failing input): `group.add_field` zips rows
with the extractor output, so an output shorter than the table — which
`extract_group_index` produces whenever some file is in no group — leaves
the remaining rows untouched: after the call one row has 1 value and
another 0, violating the every-row-gets-exactly-one-value-per-call
invariant. -/
theorem add_field_zip_truncation :
    Group.add_field [("a", []), ("b", [])] ["x"] = [("a", ["x"]), ("b", [])] ∧
    ¬ ∀ row ∈ Group.add_field [("a", []), ("b", [])] ["x"], row.2.length = 1 := by
  decide

/-- C8: `capitalize(["abc.txt"], " ", -1, True) = ["Abc.txt"]`: the first
letter of the name part is uppercased, the rest of the name and the
extension are unchanged. -/
theorem capitalize_abc_txt :
    Writer.capitalize ["abc.txt"] " " (-1) true = ["Abc.txt"] := by decide

/-- C3 (counterexample): on a table in which the same file occurs in two
rows with different attribute lists, `collapse_groups` puts the file into
two distinct groups, so the group file sequences are not pairwise
disjoint — the claim fails for such tables. -/
theorem collapse_groups_not_disjoint_on_dup :
    ∃ g1 ∈ Group.collapse_groups [("f", ["a"]), ("f", ["b"])],
      ∃ g2 ∈ Group.collapse_groups [("f", ["a"]), ("f", ["b"])],
        g1 ≠ g2 ∧ ∃ x, x ∈ g1.2 ∧ x ∈ g2.2 := by decide

/-- C5 (counterexample): `writer.rewrite` has no per-pair error handling;
with two differing pairs and the filesystem failing on the first, the
loop stops at the first pair and the second pair is never attempted —
contradicting the claim that a failure never prevents the remaining pairs
from being attempted. -/
theorem rewrite_abort_on_failure :
    Writer.rewrite (fun o _ => o == "a") ["a", "c"] ["b", "d"]
      = ([("a", "b")], some ("a", "b")) ∧
    ("c", "d") ∉ (Writer.rewrite (fun o _ => o == "a") ["a", "c"] ["b", "d"]).1 := by
  decide

/-- C3 (amended): on any attribute table whose file column has no
duplicates, `collapse_groups` is a true partition: the file sequences of
distinct groups are pairwise disjoint and their union is exactly the set
of files of the input rows. -/
theorem collapse_groups_partition (sel : Attributes)
    (hnodup : (sel.map Prod.fst).Nodup) :
    (∀ g1 ∈ Group.collapse_groups sel, ∀ g2 ∈ Group.collapse_groups sel,
        g1 ≠ g2 → ∀ x, x ∈ g1.2 → x ∉ g2.2) ∧
    (∀ x, (∃ g ∈ Group.collapse_groups sel, x ∈ g.2) ↔ x ∈ sel.map Prod.fst) := by
  constructor
  · intro g1 hg1 g2 hg2 hne x hx1 hx2
    obtain ⟨r1, hr1, hx1', hk1⟩ := (mem_collapse_group hg1).mp hx1
    obtain ⟨r2, hr2, hx2', hk2⟩ := (mem_collapse_group hg2).mp hx2
    have hr12 : r1 = r2 := eq_of_mem_of_nodup_fst hnodup hr1 hr2 (hx1'.trans hx2'.symm)
    have hkeys : g1.1 = g2.1 := by rw [← hk1, hr12, hk2]
    exact hne (((collapse_groups_shape hg1).1.trans (by rw [hkeys])).trans
      (collapse_groups_shape hg2).1.symm)
  · intro x
    constructor
    · rintro ⟨g, hg, hx⟩
      obtain ⟨r, hr, hx', _⟩ := (mem_collapse_group hg).mp hx
      exact hx' ▸ List.mem_map_of_mem Prod.fst hr
    · intro hx
      obtain ⟨r, hr, hx'⟩ := List.mem_map.mp hx
      have hkmem : Group.makeHashable r.2 ∈ sel.map fun s => Group.makeHashable s.2 :=
        List.mem_map_of_mem _ hr
      have hkd : Group.makeHashable r.2
          ∈ Group.firstDedup (sel.map fun s => Group.makeHashable s.2) :=
        mem_firstDedup.mpr hkmem
      refine ⟨(Group.makeHashable r.2,
        (sel.filter fun s => Group.makeHashable s.2 = Group.makeHashable r.2).map Prod.fst),
        List.mem_map_of_mem _ hkd, ?_⟩
      have hmemf : r ∈ sel.filter fun s => Group.makeHashable s.2 = Group.makeHashable r.2 :=
        List.mem_filter.mpr ⟨hr, by simp⟩
      exact hx' ▸ List.mem_map_of_mem Prod.fst hmemf

/-- C3 (witness): the partition theorem at a concrete three-row table. -/
theorem collapse_groups_partition_witness :
    (∀ g1 ∈ Group.collapse_groups [("f1", ["a"]), ("f2", ["a"]), ("f3", ["b"])],
      ∀ g2 ∈ Group.collapse_groups [("f1", ["a"]), ("f2", ["a"]), ("f3", ["b"])],
        g1 ≠ g2 → ∀ x, x ∈ g1.2 → x ∉ g2.2) ∧
    (∀ x, (∃ g ∈ Group.collapse_groups [("f1", ["a"]), ("f2", ["a"]), ("f3", ["b"])],
        x ∈ g.2) ↔ x ∈ ([("f1", ["a"]), ("f2", ["a"]), ("f3", ["b"])] : Attributes).map
          Prod.fst) :=
  collapse_groups_partition [("f1", ["a"]), ("f2", ["a"]), ("f3", ["b"])] (by decide)

theorem rewriteGo_cons_fail {fails : String → String → Bool} {o r : String}
    {rest : List (String × String)} (h : o ≠ r) (hf : fails o r = true) :
    Writer.rewriteGo fails ((o, r) :: rest) = ([(o, r)], some (o, r)) := by
  simp [Writer.rewriteGo, h, hf]

theorem rewriteGo_cons_ok {fails : String → String → Bool} {o r : String}
    {rest : List (String × String)} (h : o ≠ r) (hf : fails o r = false) :
    Writer.rewriteGo fails ((o, r) :: rest)
      = ((o, r) :: (Writer.rewriteGo fails rest).1, (Writer.rewriteGo fails rest).2) := by
  simp [Writer.rewriteGo, h, hf]

theorem rewriteGo_cons_skip {fails : String → String → Bool} {o r : String}
    {rest : List (String × String)} (h : o = r) :
    Writer.rewriteGo fails ((o, r) :: rest)
      = ((o, r) :: (Writer.rewriteGo fails rest).1, (Writer.rewriteGo fails rest).2) := by
  simp [Writer.rewriteGo, h]

/-- One step of `rewriteGo`: complete success means every pair was
processed; a failure means the loop stopped at the failing pair `p`
(a differing pair whose filesystem work raised), having reached exactly
the pairs up to and including `p`. -/
theorem rewriteGo_spec (fails : String → String → Bool) :
    ∀ pairs : List (String × String),
    ((Writer.rewriteGo fails pairs).2 = none →
      (Writer.rewriteGo fails pairs).1 = pairs) ∧
    ∀ p, (Writer.rewriteGo fails pairs).2 = some p →
      fails p.1 p.2 = true ∧ p.1 ≠ p.2 ∧
      ∃ k, pairs.get? k = some p ∧
        (Writer.rewriteGo fails pairs).1 = pairs.take (k + 1) := by
  intro pairs
  induction pairs with
  | nil => exact ⟨fun _ => rfl, fun p hp => by simp [Writer.rewriteGo] at hp⟩
  | cons pr rest ih =>
    obtain ⟨o, r⟩ := pr
    by_cases hor : o = r
    · rw [rewriteGo_cons_skip hor]
      refine ⟨fun hn => by rw [ih.1 hn], fun p hp => ?_⟩
      obtain ⟨h1, h2, k, hk, htake⟩ := ih.2 p hp
      exact ⟨h1, h2, k + 1, by simpa using hk, by rw [List.take_succ_cons, htake]⟩
    · by_cases hf : fails o r
      · rw [rewriteGo_cons_fail hor hf]
        refine ⟨fun hn => by simp at hn, fun p hp => ?_⟩
        obtain rfl : (o, r) = p := by simpa using hp
        exact ⟨hf, hor, 0, rfl, by simp⟩
      · have hfb : fails o r = false := by simpa using hf
        rw [rewriteGo_cons_ok hor hfb]
        refine ⟨fun hn => by rw [ih.1 hn], fun p hp => ?_⟩
        obtain ⟨h1, h2, k, hk, htake⟩ := ih.2 p hp
        exact ⟨h1, h2, k + 1, by simpa using hk, by rw [List.take_succ_cons, htake]⟩

/-- C5 (amended): `writer.rewrite` has no per-pair error handling, so the
apply step is all-or-stop: if no pair fails, every `(original, proposed)`
pair is processed; if the filesystem work for some differing pair fails,
the exception propagates and the loop stops there — the pairs before it
have been applied and the pairs after it are never attempted. -/
theorem rewrite_stops_at_first_failure (fails : String → String → Bool)
    (original renamed : List String) :
    ((Writer.rewrite fails original renamed).2 = none →
      (Writer.rewrite fails original renamed).1 = original.zip renamed) ∧
    ∀ p, (Writer.rewrite fails original renamed).2 = some p →
      fails p.1 p.2 = true ∧ p.1 ≠ p.2 ∧
      ∃ k, (original.zip renamed).get? k = some p ∧
        (Writer.rewrite fails original renamed).1 = (original.zip renamed).take (k + 1) :=
  rewriteGo_spec fails (original.zip renamed)

/-- C5 (witness): the amended theorem at a concrete run in which the
second of three pairs fails. -/
theorem rewrite_stops_witness :
    Writer.rewrite (fun o _ => o == "c") ["a", "c", "e"] ["b", "d", "f"]
      = ([("a", "b"), ("c", "d")], some ("c", "d")) ∧
    (∃ k, (List.zip ["a", "c", "e"] ["b", "d", "f"]).get? k = some ("c", "d") ∧
      (Writer.rewrite (fun o _ => o == "c") ["a", "c", "e"] ["b", "d", "f"]).1
        = (List.zip ["a", "c", "e"] ["b", "d", "f"]).take (k + 1)) :=
  ⟨by decide,
    ((rewrite_stops_at_first_failure (fun o _ => o == "c") ["a", "c", "e"]
      ["b", "d", "f"]).2 ("c", "d") (by decide)).2.2⟩

/-- The scan of a file list against an indexed group order, when every
file is covered: one index string per file, by first containing group. -/
theorem filterMap_scan_eq (order : List (String × List String)) (hfn : Nat → Int) :
    ∀ files : List String, (∀ f ∈ files, ∃ g ∈ order, f ∈ g.2) →
    (files.filterMap fun file =>
        ((order.zip ((List.range order.length).map hfn)).find?
          fun gi => decide (file ∈ gi.1.2)).map fun gi => toString gi.2)
    = files.map fun f => toString (hfn (order.findIdx fun g => decide (f ∈ g.2))) := by
  intro files
  induction files with
  | nil => intro _; rfl
  | cons f fs ih =>
    intro hc
    obtain ⟨g, _, _, hfind⟩ := find_zip_range_some order hfn (hc f (List.mem_cons_self f fs))
    rw [List.filterMap_cons, hfind]
    simp only [Option.map_some']
    rw [List.map_cons, ih fun x hx => hc x (List.mem_cons_of_mem f hx)]

/-- C4: `extract_group_index` sorts the groups by key (code-point
lexicographically — `sortPairs` is a permutation of the groups sorted by
`keyLe`), pairs them in that order (reversed when `reverse` is set) with
the indices `start, start+step, start+2*step, …`, and returns, for each
file, the index paired with the group containing that file. -/
theorem extract_group_index_spec (files : List String)
    (groups : List (String × List String)) (start step : Int) (rev : Bool)
    (hstep : step ≠ 0) (hcover : ∀ f ∈ files, ∃ g ∈ groups, f ∈ g.2) :
    List.Sorted Group.keyLe (Group.sortPairs groups) ∧
    (Group.sortPairs groups).Perm groups ∧
    Group.extract_group_index files groups start step rev
      = files.map fun f => toString (start + step *
          (((if rev then (Group.sortPairs groups).reverse
              else Group.sortPairs groups).findIdx fun g => decide (f ∈ g.2)) : Int)) := by
  refine ⟨sortPairs_sorted groups, sortPairs_perm groups, ?_⟩
  rw [extract_group_index_eq files groups start step rev hstep]
  refine filterMap_scan_eq _ (fun i => start + step * i) files ?_
  intro f hf
  obtain ⟨g, hg, hfg⟩ := hcover f hf
  have hmem : g ∈ Group.sortPairs groups := (sortPairs_perm groups).mem_iff.mpr hg
  refine ⟨g, ?_, hfg⟩
  cases rev <;> simpa using hmem

/-- C4 (witness): two singleton groups with keys `"a" < "b"`, `start=5`,
`step=10`: the file of group `"b"` gets index 15, that of `"a"` gets 5. -/
theorem extract_group_index_witness :
    Group.extract_group_index ["x/f2", "x/f1"] [("b", ["x/f2"]), ("a", ["x/f1"])] 5 10 false
      = ["15", "5"] := by
  have h := extract_group_index_spec ["x/f2", "x/f1"] [("b", ["x/f2"]), ("a", ["x/f1"])]
    5 10 false (by decide) (by decide)
  rw [h.2.2]
  decide

/-- C10: `extract_group_index` and `extract_sub_index` return one index
per input file exactly when every file occurs in some group's file list;
a file belonging to no group is silently skipped (no error, no
placeholder), so with an uncovered file the result is strictly shorter
than the file list (and hence positionally misaligned with it). -/
theorem index_extraction_skips_unmatched (files : List String)
    (groups : List (String × List String)) (start step : Int) (rev : Bool)
    (hstep : step ≠ 0) :
    ((∀ f ∈ files, ∃ g ∈ groups, f ∈ g.2) →
      (Group.extract_group_index files groups start step rev).length = files.length ∧
      (Group.extract_sub_index files groups start step).length = files.length) ∧
    ((∃ f ∈ files, ∀ g ∈ groups, f ∉ g.2) →
      (Group.extract_group_index files groups start step rev).length < files.length ∧
      (Group.extract_sub_index files groups start step).length < files.length) := by
  have horder : ∀ g : String × List String,
      (g ∈ (if rev then (Group.sortPairs groups).reverse else Group.sortPairs groups))
        ↔ g ∈ groups := by
    intro g
    cases rev <;> simp [(sortPairs_perm groups).mem_iff]
  constructor
  · intro hcov
    constructor
    · rw [extract_group_index_eq files groups start step rev hstep]
      apply filterMap_length_all_some
      intro f hf
      obtain ⟨g, hg, hfg⟩ := hcov f hf
      obtain ⟨g', _, _, hfind⟩ := find_zip_range_some
        (if rev then (Group.sortPairs groups).reverse else Group.sortPairs groups)
        (fun i => start + step * i) ⟨g, (horder g).mpr hg, hfg⟩
      simp [hfind]
    · apply filterMap_length_all_some
      intro f hf
      obtain ⟨g, hg, hfg⟩ := hcov f hf
      have hsome : (groups.find? fun g => decide (f ∈ g.2)).isSome :=
        List.find?_isSome.mpr ⟨g, hg, by simpa using hfg⟩
      simpa using hsome
  · rintro ⟨f, hf, hnone⟩
    constructor
    · rw [extract_group_index_eq files groups start step rev hstep]
      apply filterMap_length_lt
      refine ⟨f, hf, ?_⟩
      rw [find_zip_range_none
        (if rev then (Group.sortPairs groups).reverse else Group.sortPairs groups)
        (fun i => start + step * i) fun g hg => hnone g ((horder g).mp hg)]
      rfl
    · apply filterMap_length_lt
      refine ⟨f, hf, ?_⟩
      have hn : (groups.find? fun g => decide (f ∈ g.2)) = none :=
        List.find?_eq_none.mpr fun g hg => by simpa using hnone g hg
      simp [hn]

/-- C10 (witness): with the single group `("k", ["f1"])`, every-file
coverage gives one index per file, while the uncovered file `"zz"` makes
the result strictly shorter. -/
theorem index_extraction_skips_witness :
    (Group.extract_group_index ["f1"] [("k", ["f1"])] 1 1 false).length = 1 ∧
    (Group.extract_group_index ["f1", "zz"] [("k", ["f1"])] 1 1 false).length < 2 ∧
    (Group.extract_sub_index ["f1", "zz"] [("k", ["f1"])] 1 1).length < 2 := by
  refine ⟨?_, ?_, ?_⟩
  · exact ((index_extraction_skips_unmatched ["f1"] [("k", ["f1"])] 1 1 false
      (by decide)).1 (by decide)).1
  · exact ((index_extraction_skips_unmatched ["f1", "zz"] [("k", ["f1"])] 1 1 false
      (by decide)).2 (by decide)).1
  · exact ((index_extraction_skips_unmatched ["f1", "zz"] [("k", ["f1"])] 1 1 false
      (by decide)).2 (by decide)).2

/-- C9 (amended): the rename transforms split the basename at its
*first* dot (so for `a.tar.gz` only `a` is transformed and `tar.gz` is
the preserved extension): for a basename (not starting with a dot)
containing a dot, the name part holds no dot and name ++ "." ++ ext
reconstructs the basename; when the extension is non-empty, replace,
sub, upper, lower and capitalize all return directory ++ transformed-name
++ "." ++ ext with the extension untouched.  For a dotless basename,
replace, sub, upper and lower append no dot (capitalize is excluded: its
single-word branch appends a bare dot, see the counterexample; likewise
a basename whose first dot is final, ext = "", loses the dot).  The
extraction engine's `extract_ext` instead returns the text after the
*last* dot of the whole path. -/
theorem ext_boundary_frame (f c r : String) (cnt : Int) (rsub : String → String)
    (pc : String) (ccnt : Int) (cs : Bool)
    (hstart : (pyBasename f).data.head? ≠ some '.') :
    ('.' ∈ (pyBasename f).data →
      ('.' ∉ (Utils.filetupleOne f).name.data ∧
        (Utils.filetupleOne f).name ++ "." ++ (Utils.filetupleOne f).ext = pyBasename f) ∧
      ((Utils.filetupleOne f).ext ≠ "" →
        Writer.replace [f] c r cnt
          = [(Utils.filetupleOne f).dir
              ++ (if (Utils.filetupleOne f).dir ≠ "" then "/" else "")
              ++ pyReplace (Utils.filetupleOne f).name c r cnt
              ++ "." ++ (Utils.filetupleOne f).ext] ∧
        Writer.sub rsub [f]
          = [(Utils.filetupleOne f).dir
              ++ (if (Utils.filetupleOne f).dir ≠ "" then "/" else "")
              ++ rsub (Utils.filetupleOne f).name
              ++ "." ++ (Utils.filetupleOne f).ext] ∧
        Writer.upper [f]
          = [(Utils.filetupleOne f).dir
              ++ (if (Utils.filetupleOne f).dir ≠ "" then "/" else "")
              ++ pyUpper (Utils.filetupleOne f).name
              ++ "." ++ (Utils.filetupleOne f).ext] ∧
        Writer.lower [f]
          = [(Utils.filetupleOne f).dir
              ++ (if (Utils.filetupleOne f).dir ≠ "" then "/" else "")
              ++ pyLower (Utils.filetupleOne f).name
              ++ "." ++ (Utils.filetupleOne f).ext] ∧
        ∃ n', Writer.capitalize [f] pc ccnt cs
          = [(Utils.filetupleOne f).dir
              ++ (if (Utils.filetupleOne f).dir ≠ "" then "/" else "")
              ++ n' ++ "." ++ (Utils.filetupleOne f).ext])) ∧
    ('.' ∉ (pyBasename f).data →
      (Utils.filetupleOne f).name = pyBasename f ∧
      (Utils.filetupleOne f).ext = "" ∧
      Writer.replace [f] c r cnt
        = [pyDirname f ++ (if pyDirname f ≠ "" then "/" else "")
            ++ pyReplace (pyBasename f) c r cnt] ∧
      Writer.sub rsub [f]
        = [pyDirname f ++ (if pyDirname f ≠ "" then "/" else "")
            ++ rsub (pyBasename f)] ∧
      Writer.upper [f]
        = [pyDirname f ++ (if pyDirname f ≠ "" then "/" else "")
            ++ pyUpper (pyBasename f)] ∧
      Writer.lower [f]
        = [pyDirname f ++ (if pyDirname f ≠ "" then "/" else "")
            ++ pyLower (pyBasename f)]) ∧
    (∀ g : String, Group.extract_ext [g]
      = [String.mk ((g.data.reverse.takeWhile fun ch => ch ≠ '.').reverse)]) := by
  refine ⟨?_, ?_, ?_⟩
  · intro hdot
    obtain ⟨a, b, heq, hna, ht⟩ := filetupleOne_dotted hstart hdot
    constructor
    · constructor
      · rw [ht]; exact hna
      · rw [ht]
        show String.mk a ++ "." ++ String.mk b = pyBasename f
        have h1 : String.mk a ++ "." ++ String.mk b = String.mk (a ++ '.' :: b) := by
          show String.mk ((a ++ ['.']) ++ b) = String.mk (a ++ '.' :: b)
          rw [List.append_assoc]
          rfl
        rw [h1, ← heq]
    · intro hext
      have hrep : Writer.replace [f] c r cnt
          = [Utils.compose_filepath (Utils.filetupleOne f).dir
              (pyReplace (Utils.filetupleOne f).name c r cnt)
              (Utils.filetupleOne f).ext "/"] := rfl
      have hsub : Writer.sub rsub [f]
          = [Utils.compose_filepath (Utils.filetupleOne f).dir
              (rsub (Utils.filetupleOne f).name) (Utils.filetupleOne f).ext "/"] := rfl
      have hupp : Writer.upper [f]
          = [Utils.compose_filepath (Utils.filetupleOne f).dir
              (pyUpper (Utils.filetupleOne f).name) (Utils.filetupleOne f).ext "/"] := rfl
      have hlow : Writer.lower [f]
          = [Utils.compose_filepath (Utils.filetupleOne f).dir
              (pyLower (Utils.filetupleOne f).name) (Utils.filetupleOne f).ext "/"] := rfl
      have hcap : Writer.capitalize [f] pc ccnt cs
          = [(Writer.capitalizeOne pc cs ccnt (Utils.filetupleOne f)).1] := rfl
      obtain ⟨n', hn'⟩ := capitalizeOne_ext pc cs ccnt (Utils.filetupleOne f) hext
      exact ⟨by rw [hrep, compose_ext_ne hext], by rw [hsub, compose_ext_ne hext],
        by rw [hupp, compose_ext_ne hext], by rw [hlow, compose_ext_ne hext],
        n', by rw [hcap, hn']⟩
  · intro hdot
    have ht := filetupleOne_dotless hstart hdot
    have hrep : Writer.replace [f] c r cnt
        = [Utils.compose_filepath (Utils.filetupleOne f).dir
            (pyReplace (Utils.filetupleOne f).name c r cnt)
            (Utils.filetupleOne f).ext "/"] := rfl
    have hsub : Writer.sub rsub [f]
        = [Utils.compose_filepath (Utils.filetupleOne f).dir
            (rsub (Utils.filetupleOne f).name) (Utils.filetupleOne f).ext "/"] := rfl
    have hupp : Writer.upper [f]
        = [Utils.compose_filepath (Utils.filetupleOne f).dir
            (pyUpper (Utils.filetupleOne f).name) (Utils.filetupleOne f).ext "/"] := rfl
    have hlow : Writer.lower [f]
        = [Utils.compose_filepath (Utils.filetupleOne f).dir
            (pyLower (Utils.filetupleOne f).name) (Utils.filetupleOne f).ext "/"] := rfl
    refine ⟨by rw [ht], by rw [ht], ?_, ?_, ?_, ?_⟩
    · rw [hrep, ht]; exact congrArg (fun s => [s]) (compose_ext_empty _ _)
    · rw [hsub, ht]; exact congrArg (fun s => [s]) (compose_ext_empty _ _)
    · rw [hupp, ht]; exact congrArg (fun s => [s]) (compose_ext_empty _ _)
    · rw [hlow, ht]; exact congrArg (fun s => [s]) (compose_ext_empty _ _)
  · intro g
    have h0 : Group.extract_ext [g]
        = [((splitAll ['.'] g.data).map String.mk).getLastD ""] := rfl
    have h1 : (((splitAll ['.'] g.data).map String.mk).getLastD "")
        = String.mk ((splitAll ['.'] g.data).getLastD []) :=
      getLastD_map_mk (splitAll ['.'] g.data) []
    have h2 : splitAll ['.'] g.data = splitFuel ['.'] g.data.length g.data := rfl
    rw [h0, h1, h2, splitFuel_getLast g.data.length g.data (le_refl _)]

/-- C9 (witness): the amended frame at `d/a.tar.gz` (only `a` is
transformed, `tar.gz` preserved) and at the dotless `ab` (no dot
appended), plus `extract_ext` taking the text after the last dot. -/
theorem ext_boundary_frame_witness :
    (Utils.filetupleOne "d/a.tar.gz").name ++ "." ++ (Utils.filetupleOne "d/a.tar.gz").ext
      = pyBasename "d/a.tar.gz" ∧
    Writer.replace ["d/a.tar.gz"] "a" "x" (-1)
      = [(Utils.filetupleOne "d/a.tar.gz").dir
          ++ (if (Utils.filetupleOne "d/a.tar.gz").dir ≠ "" then "/" else "")
          ++ pyReplace (Utils.filetupleOne "d/a.tar.gz").name "a" "x" (-1)
          ++ "." ++ (Utils.filetupleOne "d/a.tar.gz").ext] ∧
    Writer.replace ["d/a.tar.gz"] "a" "x" (-1) = ["d/x.tar.gz"] ∧
    Writer.replace ["ab"] "b" "c" (-1)
      = [pyDirname "ab" ++ (if pyDirname "ab" ≠ "" then "/" else "")
          ++ pyReplace (pyBasename "ab") "b" "c" (-1)] ∧
    Writer.replace ["ab"] "b" "c" (-1) = ["ac"] ∧
    Group.extract_ext ["d/a.tar.gz"]
      = [String.mk ((("d/a.tar.gz" : String).data.reverse.takeWhile
          fun ch => ch ≠ '.').reverse)] ∧
    Group.extract_ext ["d/a.tar.gz"] = ["gz"] := by
  have h := ext_boundary_frame "d/a.tar.gz" "a" "x" (-1) (fun n => n) " " (-1) true
    (by decide)
  have h' := ext_boundary_frame "ab" "b" "c" (-1) (fun n => n) " " (-1) true (by decide)
  have hd := h.1 (by decide)
  have hd2 := hd.2 (by decide)
  have hb := h'.2.1 (by decide)
  exact ⟨hd.1.2, hd2.1, hd2.1.trans (by decide), hb.2.2.1, (hb.2.2.1).trans (by decide),
    h.2.2 "d/a.tar.gz", (h.2.2 "d/a.tar.gz").trans (by decide)⟩

/-- C6: selecting columns by variable name: when every requested name is
bound, `select_variables` returns, per row, the columns at the indices of
the requested names; when some requested name is unbound, it raises an
error naming the *first* missing name (as `global_variables.index(var)`
does), before any column is read. -/
theorem select_variables_spec (table : Attributes) (G V : List String)
    (hrows : ∀ row ∈ table, row.2.length = G.length) :
    ((∀ v ∈ V, v ∈ G) →
      Group.select_variables table G V
        = Except.ok (table.map fun row =>
            (row.1, V.map fun v => row.2.getD (G.indexOf v) ""))) ∧
    (∀ v pre post, V = pre ++ v :: post → (∀ u ∈ pre, u ∈ G) → v ∉ G →
      Group.select_variables table G V = Except.error v) := by
  constructor
  · intro hall
    have hidx : mapExcept (pyIndex G) V = .ok (V.map fun v => G.indexOf v) :=
      mapExcept_ok fun v hv => by simp [pyIndex, hall v hv]
    unfold Group.select_variables
    rw [hidx]
    unfold Group.select_fields
    apply mapExcept_ok
    intro row hrow
    have hinner : mapExcept (pyGetAttr row.2) (V.map fun v => G.indexOf v)
        = .ok ((V.map fun v => G.indexOf v).map fun i => row.2.getD i "") := by
      apply mapExcept_ok
      intro i hi
      obtain ⟨v, hv, rfl⟩ := List.mem_map.mp hi
      exact pyGetAttr_ok (by rw [hrows row hrow]; exact List.indexOf_lt_length.mpr (hall v hv))
    rw [hinner, List.map_map]
    rfl
  · intro v pre post hV hpre hv
    have herr : mapExcept (pyIndex G) V = .error v := by
      rw [hV]
      exact mapExcept_first_error (by simp [pyIndex, hv])
        pre (fun u hu => ⟨G.indexOf u, by simp [pyIndex, hpre u hu]⟩) post
    unfold Group.select_variables
    rw [herr]

/-- C6 (witness): the spec at a one-row table with variables `x`, `y`:
selecting `["y"]` yields the second column; selecting `["y", "z"]` fails
naming `z`. -/
theorem select_variables_witness :
    Group.select_variables [("f", ["u", "v"])] ["x", "y"] ["y"]
      = Except.ok [("f", ["v"])] ∧
    Group.select_variables [("f", ["u", "v"])] ["x", "y"] ["y", "z"]
      = Except.error "z" := by
  constructor
  · exact (select_variables_spec [("f", ["u", "v"])] ["x", "y"] ["y"]
      (by decide)).1 (by decide)
  · exact (select_variables_spec [("f", ["u", "v"])] ["x", "y"] ["y", "z"]
      (by decide)).2 "z" ["y"] [] rfl (by decide) (by decide)

/-- C9 (counterexample): `capitalize` on the dotless basename `"abc"`
takes its single-word branch and appends a bare dot (`"Abc."`), and
`replace` on the basename `"a."` (a dot with nothing after it) drops the
dot — so neither "a dotless basename gets no appended dot" nor
"everything from the first dot onward is unchanged" holds as stated. -/
theorem ext_boundary_counterexample :
    (Writer.capitalize ["abc"] " " (-1) true = ["Abc."] ∧ '.' ∈ ("Abc.").data) ∧
    (Writer.replace ["a."] "a" "b" (-1) = ["b"] ∧ '.' ∉ ("b").data) := by decide

end Lazydir
